import Mathlib

/-!
Verification development for the DemoUE container core: the sized heap
allocator (ContainerAllocationPolicies.h) and the TMapBase family
(map built on a hash-bucketed sparse set of key/value pairs).

The C++ sources are shallowly embedded as executable Lean definitions.
The sparse element set (TSet) is consumed by TMapBase but its source is
not part of this excerpt; it is modelled from the specification's
description of its contract (hash-bucket chaining, replace-in-place on
duplicate-free insertion, tombstone-free observable behaviour).
-/

namespace DemoUE

/-! ## Sized heap allocator (TSizedHeapAllocator::ForAnyElementType) -/

/-- MAX_int32 from the platform headers: the largest signed 32-bit value. -/
def MAX_int32 : Nat := 2 ^ 31 - 1

/-- Bit width of the platform size type SIZE_T (unsigned __int64 on Win64,
per WindowsPlatform.h). -/
def SIZE_T_BITS : Nat := 64

/-- Allocator state: TSizedHeapAllocator::ForAnyElementType holds a single
Data pointer; `none` models nullptr, `some b` models ownership of block `b`. -/
structure ForAnyElementType where
  Data : Option Nat
deriving DecidableEq

/-- Observable outcome of one ResizeAllocation call: the early return
(no block and no elements requested), the non-returning fatal diagnostic
hook OnInvalidSizedHeapAllocatorNum (identified by index width, requested
count and element size), or a Realloc to an exact byte count. -/
inductive ResizeOutcome where
  | noop : ResizeOutcome
  | fatal (indexSize : Nat) (numElements : Int) (numBytesPerElement : Nat) : ResizeOutcome
  | realloc (numBytes : Nat) : ResizeOutcome
deriving DecidableEq

/-- Signed maximum of the allocator's SizeType, TNumericLimits of SizeType. -/
def sizeTypeMax (indexSize : Nat) : Nat := 2 ^ (indexSize - 1) - 1

/-- Cast of the signed NumElements to the unsigned USizeType of the same
width, as in the expression (SIZE_T)(USizeType)NumElements. -/
def castToUSizeType (indexSize : Nat) (NumElements : Int) : Nat :=
  (NumElements % (2 : Int) ^ indexSize).toNat

/-- First part of the bInvalidResize computation:
NumElements < 0 || NumBytesPerElement < 1 || NumBytesPerElement > MAX_int32. -/
def bInvalidResizeBase (NumElements : Int) (NumBytesPerElement : Nat) : Bool :=
  decide (NumElements < 0) || decide (NumBytesPerElement < 1) ||
    decide (NumBytesPerElement > MAX_int32)

/-- Full bInvalidResize computation: the division-based overflow test against
the SizeType maximum is compiled in only when sizeof SizeType equals
sizeof SIZE_T (the constexpr-if in ResizeAllocation). -/
def bInvalidResize (indexSize : Nat) (NumElements : Int) (NumBytesPerElement : Nat) : Bool :=
  if indexSize = SIZE_T_BITS then
    bInvalidResizeBase NumElements NumBytesPerElement ||
      decide (sizeTypeMax indexSize / NumBytesPerElement <
        castToUSizeType indexSize NumElements)
  else
    bInvalidResizeBase NumElements NumBytesPerElement

/-- ResizeAllocation of TSizedHeapAllocator::ForAnyElementType: if the
allocator owns no block and no elements are requested it returns at once
(avoiding Realloc(nullptr, 0)); otherwise it validates the parameters,
calling the fatal hook on failure (which does not return), and on success
requests Realloc for NumElements * NumBytesPerElement bytes, the product
taken in SIZE_T arithmetic. -/
def ResizeAllocation (indexSize : Nat) (alloc : ForAnyElementType)
    (NumElements : Int) (NumBytesPerElement : Nat) : ResizeOutcome :=
  if alloc.Data.isSome || NumElements != 0 then
    if bInvalidResize indexSize NumElements NumBytesPerElement then
      ResizeOutcome.fatal indexSize NumElements NumBytesPerElement
    else
      ResizeOutcome.realloc ((NumElements.toNat * NumBytesPerElement) % 2 ^ SIZE_T_BITS)
  else
    ResizeOutcome.noop

/-- Debug-build internal check executed by MoveToEmptyFromOtherAllocator:
checkSlow((void*)this != (void*)&Other), an aliasing check on the two
allocator objects' addresses. -/
def MoveToEmptyCheckSlow (selfAddr otherAddr : Nat) : Bool :=
  selfAddr != otherAddr

/-- Result of a MoveToEmpty call: the two allocator states afterwards and
the block freed by the destination (BaseMallocType::Free runs only when the
destination held a block, which is exactly when `freed` is `some`). -/
structure MoveResult where
  selfAfter : ForAnyElementType
  otherAfter : ForAnyElementType
  freed : Option Nat
deriving DecidableEq

/-- MoveToEmptyFromOtherAllocator: frees the destination's existing block
if any, then takes the source's Data pointer and nulls the source. -/
def MoveToEmptyFromOtherAllocator (self other : ForAnyElementType) : MoveResult :=
  { selfAfter := { Data := other.Data }
    otherAfter := { Data := none }
    freed := self.Data }

/-- MoveToEmpty forwards to MoveToEmptyFromOtherAllocator with the same
allocator type. -/
def MoveToEmpty (self other : ForAnyElementType) : MoveResult :=
  MoveToEmptyFromOtherAllocator self other

/-! ## Key strategy (KeyFuncs) -/

/-- Pluggable key strategy consumed by the map: GetKeyHash, an equality
test Matches, and the duplicate-keys capability flag. -/
structure KeyFuncs (K : Type) where
  GetKeyHash : K → Nat
  Matches : K → K → Bool
  bAllowDuplicateKeys : Bool

/-- TDefaultMapKeyFuncs as instantiated by TMap: Matches is the key type's
own equality, duplicate keys are disallowed (TMap statically asserts
bAllowDuplicateKeys is false), and the hash is the pluggable GetTypeHash. -/
def TDefaultMapKeyFuncs (K : Type) [DecidableEq K] (hash : K → Nat) : KeyFuncs K :=
  { GetKeyHash := hash
    Matches := fun a b => a == b
    bAllowDuplicateKeys := false }

/-! ## Sparse element set (TSet of key/value pairs)

TMapBase wraps a TSet of pairs whose source is not part of this excerpt.
The definitions below are modelled from the spec: a hash-bucketed
collection of live elements; each element records the hash it was filed
under; lookups by hash only reach elements filed under that hash; when
duplicate keys are disallowed an insertion finding a matching live element
replaces it in place (value updated, key retained) instead of appending. -/

/-- Live element of the sparse pair set: key, value, and the hash bucket
index the element was filed under at insertion. -/
structure SetElement (K V : Type) where
  Key : K
  Value : V
  HashIndex : Nat
deriving DecidableEq

/-- Index of the first list entry satisfying a predicate. -/
def findIdxP {α : Type} (p : α → Bool) : List α → Option Nat
  | [] => none
  | a :: l => if p a then some 0 else (findIdxP p l).map (fun n => n + 1)

/-- Replace the value stored at position i, keeping key and hash. -/
def replaceValueAt {K V : Type} : List (SetElement K V) → Nat → V → List (SetElement K V)
  | [], _, _ => []
  | e :: l, 0, v => { e with Value := v } :: l
  | e :: l, Nat.succ n, v => e :: replaceValueAt l n v

/-- Bucket probe predicate: the element is filed under hash h and its key
Matches the searched key. -/
def elemMatches {K V : Type} (kf : KeyFuncs K) (h : Nat) (k : K)
    (e : SetElement K V) : Bool :=
  e.HashIndex == h && kf.Matches e.Key k

namespace TSet

/-- Modelled from the spec: TSet::FindIdByHash, the id (slot index) of the
first live element reachable in bucket h whose key Matches k. -/
def FindIdByHash {K V : Type} (kf : KeyFuncs K) (es : List (SetElement K V))
    (h : Nat) (k : K) : Option Nat :=
  findIdxP (elemMatches kf h k) es

/-- Modelled from the spec: TSet::FindByHash, the first live element
reachable in bucket h whose key Matches k. -/
def FindByHash {K V : Type} (kf : KeyFuncs K) (es : List (SetElement K V))
    (h : Nat) (k : K) : Option (SetElement K V) :=
  es.find? (elemMatches kf h k)

/-- Modelled from the spec: TSet::Find computes GetKeyHash of the key and
probes that bucket. -/
def Find {K V : Type} (kf : KeyFuncs K) (es : List (SetElement K V))
    (k : K) : Option (SetElement K V) :=
  FindByHash kf es (kf.GetKeyHash k) k

/-- Modelled from the spec: TSet::EmplaceByHash. When duplicate keys are
disallowed, a live element with a Matching key is replaced in place
(value updated, key and slot retained); otherwise the pair is appended as
a fresh element filed under h. Returns the new element list and the slot
id of the stored pair. -/
def EmplaceByHash {K V : Type} (kf : KeyFuncs K) (h : Nat) (p : K × V)
    (es : List (SetElement K V)) : List (SetElement K V) × Nat :=
  if kf.bAllowDuplicateKeys then
    (es ++ [{ Key := p.1, Value := p.2, HashIndex := h }], es.length)
  else
    match FindIdByHash kf es h p.1 with
    | some i => (replaceValueAt es i p.2, i)
    | none => (es ++ [{ Key := p.1, Value := p.2, HashIndex := h }], es.length)

/-- Modelled from the spec: TSet::Emplace computes GetKeyHash of the pair's
key and files the pair under it. -/
def Emplace {K V : Type} (kf : KeyFuncs K) (p : K × V)
    (es : List (SetElement K V)) : List (SetElement K V) × Nat :=
  EmplaceByHash kf (kf.GetKeyHash p.1) p es

/-- Modelled from the spec: TSet::RemoveByHash removes every live element
reachable in bucket h whose key Matches k and returns how many were
removed. -/
def RemoveByHash {K V : Type} (kf : KeyFuncs K) (h : Nat) (k : K)
    (es : List (SetElement K V)) : List (SetElement K V) × Nat :=
  (es.filter (fun e => ! elemMatches kf h k e), es.countP (elemMatches kf h k))

/-- Modelled from the spec: TSet::Remove computes GetKeyHash of the key
and removes through that bucket. -/
def Remove {K V : Type} (kf : KeyFuncs K) (k : K)
    (es : List (SetElement K V)) : List (SetElement K V) × Nat :=
  RemoveByHash kf (kf.GetKeyHash k) k es

end TSet

/-! ## TMapBase (src/unnamed/part_001)

Each operation below is a direct translation of the corresponding
TMapBase member. References returned by the C++ code are modelled as the
slot id (index into Pairs) of the referenced pair. -/

/-- TMapBase: wraps one sparse element set of key/value pairs. -/
structure TMapBase (K V : Type) where
  Pairs : List (SetElement K V)
deriving DecidableEq

namespace TMapBase

/-- Default-constructed empty map. -/
def empty (K V : Type) : TMapBase K V := { Pairs := [] }

/-- TMapBase::Num, the number of elements in the map (Pairs.Num()). -/
def Num {K V : Type} (m : TMapBase K V) : Nat := m.Pairs.length

/-- TMapBase::Emplace: Pairs.Emplace of the pair initializer; returns the
map afterwards and the slot id whose Value the C++ reference denotes. -/
def Emplace {K V : Type} (kf : KeyFuncs K) (m : TMapBase K V) (k : K) (v : V) :
    TMapBase K V × Nat :=
  ((⟨(TSet.Emplace kf (k, v) m.Pairs).1⟩ : TMapBase K V), (TSet.Emplace kf (k, v) m.Pairs).2)

/-- TMapBase::EmplaceByHash: Pairs.EmplaceByHash with the caller's hash. -/
def EmplaceByHash {K V : Type} (kf : KeyFuncs K) (m : TMapBase K V) (h : Nat)
    (k : K) (v : V) : TMapBase K V × Nat :=
  ((⟨(TSet.EmplaceByHash kf h (k, v) m.Pairs).1⟩ : TMapBase K V),
    (TSet.EmplaceByHash kf h (k, v) m.Pairs).2)

/-- TMapBase::Add forwards to Emplace. -/
def Add {K V : Type} (kf : KeyFuncs K) (m : TMapBase K V) (k : K) (v : V) :
    TMapBase K V × Nat :=
  Emplace kf m k v

/-- TMapBase::AddByHash forwards to EmplaceByHash. -/
def AddByHash {K V : Type} (kf : KeyFuncs K) (m : TMapBase K V) (h : Nat)
    (k : K) (v : V) : TMapBase K V × Nat :=
  EmplaceByHash kf m h k v

/-- TMapBase::Find: Pairs.Find, then the found pair's Value; nullptr is
modelled as `none`. -/
def Find {K V : Type} (kf : KeyFuncs K) (m : TMapBase K V) (k : K) : Option V :=
  (TSet.Find kf m.Pairs k).map SetElement.Value

/-- TMapBase::FindByHash: Pairs.FindByHash, then the found pair's Value. -/
def FindByHash {K V : Type} (kf : KeyFuncs K) (m : TMapBase K V) (h : Nat)
    (k : K) : Option V :=
  (TSet.FindByHash kf m.Pairs h k).map SetElement.Value

/-- TMapBase::HashKey, the private helper returning KeyFuncs::GetKeyHash. -/
def HashKey {K : Type} (kf : KeyFuncs K) (k : K) : Nat := kf.GetKeyHash k

/-- TMapBase::Remove: Pairs.Remove, returning the map afterwards and the
number of removed pairs. -/
def Remove {K V : Type} (kf : KeyFuncs K) (m : TMapBase K V) (k : K) :
    TMapBase K V × Nat :=
  ((⟨(TSet.Remove kf k m.Pairs).1⟩ : TMapBase K V), (TSet.Remove kf k m.Pairs).2)

/-- TMapBase::FindOrAddImpl: probe by the precomputed hash; when found,
return the existing pair's slot unchanged, otherwise AddByHash reusing the
same hash. -/
def FindOrAddImpl {K V : Type} (kf : KeyFuncs K) (m : TMapBase K V) (h : Nat)
    (k : K) (v : V) : TMapBase K V × Nat :=
  match TSet.FindIdByHash kf m.Pairs h k with
  | some i => (m, i)
  | none => AddByHash kf m h k v

/-- TMapBase::FindOrAdd(Key, Value): computes the hash once via HashKey and
forwards it to FindOrAddImpl for both the probe and the fallback insert. -/
def FindOrAdd {K V : Type} (kf : KeyFuncs K) (m : TMapBase K V) (k : K) (v : V) :
    TMapBase K V × Nat :=
  FindOrAddImpl kf m (HashKey kf k) k v

/-- TMapBase::OrderIndependentCompareEqual: false on a cardinality
mismatch, otherwise every pair of this map must be found in the other with
a value comparing equal. -/
def OrderIndependentCompareEqual {K V : Type} [BEq V] (kf : KeyFuncs K)
    (m other : TMapBase K V) : Bool :=
  if m.Num != other.Num then false
  else m.Pairs.all (fun e =>
    match Find kf other e.Key with
    | none => false
    | some bv => bv == e.Value)

/-- Loop body of TMapBase::GetKeys (TArray overload): visit the pairs in
order, appending each key not already visited; VisitedKeys and OutKeys
always hold the same keys, so one accumulator models both. -/
def collectUniqueKeys {K V : Type} [BEq K] :
    List (SetElement K V) → List K → List K
  | [], acc => acc
  | e :: l, acc =>
    if acc.contains e.Key then collectUniqueKeys l acc
    else collectUniqueKeys l (acc ++ [e.Key])

/-- TMapBase::GetKeys (TArray overload): resets OutKeys, then writes the
not-yet-visited key of each pair, returning OutKeys and OutKeys.Num(). -/
def GetKeys {K V : Type} [BEq K] (m : TMapBase K V) (outKeys0 : List K) :
    List K × Nat :=
  let reset : List K := []
  let out := collectUniqueKeys m.Pairs reset
  (out, out.length)

end TMapBase

/-! ## Derived forms used to state the claims -/

/-- Fold a sequence of Add calls over a starting map. -/
def addList {K V : Type} (kf : KeyFuncs K) (m : TMapBase K V)
    (ops : List (K × V)) : TMapBase K V :=
  ops.foldl (fun acc p => (TMapBase.Add kf acc p.1 p.2).1) m

/-- Map obtained from the empty map by a sequence of Add calls. -/
def addSeq {K V : Type} (kf : KeyFuncs K) (ops : List (K × V)) : TMapBase K V :=
  addList kf (TMapBase.empty K V) ops

/-- Value of the most recent Add for key k in a call sequence, seeded with
a previous result. -/
def lastValFrom {K V : Type} [DecidableEq K] (acc : Option V)
    (ops : List (K × V)) (k : K) : Option V :=
  ops.foldl (fun a p => if p.1 = k then some p.2 else a) acc

/-- Value of the most recent Add for key k in a call sequence. -/
def lastVal {K V : Type} [DecidableEq K] (ops : List (K × V)) (k : K) : Option V :=
  lastValFrom none ops k

/-- Element as stored by an appending Add under the default key strategy. -/
def mkElem {K V : Type} (hash : K → Nat) (p : K × V) : SetElement K V :=
  { Key := p.1, Value := p.2, HashIndex := hash p.1 }

/-- Well-formedness of a map state under a hash function: every element is
filed under the hash of its key, and keys are pairwise distinct. Maps
built by Add sequences from empty satisfy it. -/
def WellFormed {K V : Type} (hash : K → Nat) (m : TMapBase K V) : Prop :=
  (∀ e ∈ m.Pairs, e.HashIndex = hash e.Key) ∧ (m.Pairs.map SetElement.Key).Nodup

/-- Concrete hash for the String scenarios. -/
def hashStr (s : String) : Nat := s.length

/-- Default key strategy at String keys for the concrete scenarios. -/
def kfStr : KeyFuncs String := TDefaultMapKeyFuncs String hashStr

/-- Key literal for scenario A. -/
def keyA : String := "a"

/-- Key literal for scenario A. -/
def keyB : String := "b"

/-- Key literal for scenario B. -/
def keyMissing : String := "missing"

/-- Scenario A insertion sequence: ("a",1), ("b",2), ("a",3). -/
def scenarioAOps : List (String × Nat) := [(keyA, 1), (keyB, 2), (keyA, 3)]

/-- Scenario A map. -/
def scenarioAMap : TMapBase String Nat := addSeq kfStr scenarioAOps

/-! ## Helper lemmas on the list primitives -/

theorem findIdxP_eq_none_iff {α : Type} (p : α → Bool) (l : List α) :
    findIdxP p l = none ↔ ∀ a ∈ l, p a = false := by
  induction l with
  | nil => simp [findIdxP]
  | cons a l ih =>
    by_cases hp : p a = true
    · simp [findIdxP, hp]
    · simp only [Bool.not_eq_true] at hp
      simp [findIdxP, hp, ih]

theorem find?_eq_none_of_findIdxP_none {α : Type} {p : α → Bool} {l : List α}
    (h : findIdxP p l = none) : l.find? p = none := by
  rw [List.find?_eq_none]
  intro a ha
  exact fun hpa => by simp [(findIdxP_eq_none_iff p l).1 h a ha] at hpa

theorem findIdxP_append_singleton {α : Type} {p : α → Bool} {l : List α} {x : α}
    (hl : findIdxP p l = none) (hx : p x = true) :
    findIdxP p (l ++ [x]) = some l.length := by
  induction l with
  | nil => simp [findIdxP, hx]
  | cons a l ih =>
    by_cases hp : p a = true
    · simp [findIdxP, hp] at hl
    · simp only [Bool.not_eq_true] at hp
      simp only [findIdxP, hp, Bool.false_eq_true, if_false, Option.map_eq_none'] at hl
      simp [findIdxP, hp, ih hl]

theorem find?_append_of_none {α : Type} {p : α → Bool} {l1 l2 : List α}
    (h : l1.find? p = none) : (l1 ++ l2).find? p = l2.find? p := by
  induction l1 with
  | nil => simp
  | cons a l ih =>
    by_cases hp : p a = true
    · simp [List.find?, hp] at h
    · simp only [Bool.not_eq_true] at hp
      simp only [List.find?, hp] at h
      simp [List.find?_cons, hp, ih h]

theorem find?_append_single_false {α : Type} {p : α → Bool} {l : List α} {x : α}
    (hx : p x = false) : (l ++ [x]).find? p = l.find? p := by
  induction l with
  | nil => simp [List.find?, hx]
  | cons a l ih =>
    by_cases hp : p a = true
    · simp [List.find?_cons, hp]
    · simp only [Bool.not_eq_true] at hp
      simp [List.find?_cons, hp, ih]

theorem length_replaceValueAt {K V : Type} (es : List (SetElement K V))
    (i : Nat) (v : V) : (replaceValueAt es i v).length = es.length := by
  induction es generalizing i with
  | nil => simp [replaceValueAt]
  | cons e l ih =>
    cases i with
    | zero => simp [replaceValueAt]
    | succ n => simp [replaceValueAt, ih]

theorem keys_replaceValueAt {K V : Type} (es : List (SetElement K V))
    (i : Nat) (v : V) :
    (replaceValueAt es i v).map SetElement.Key = es.map SetElement.Key := by
  induction es generalizing i with
  | nil => simp [replaceValueAt]
  | cons e l ih =>
    cases i with
    | zero => simp [replaceValueAt]
    | succ n => simp [replaceValueAt, ih]

theorem mem_replaceValueAt {K V : Type} {es : List (SetElement K V)}
    {i : Nat} {v : V} {x : SetElement K V} (hx : x ∈ replaceValueAt es i v) :
    x ∈ es ∨ ∃ e ∈ es, x = { e with Value := v } := by
  induction es generalizing i with
  | nil => simp [replaceValueAt] at hx
  | cons e l ih =>
    cases i with
    | zero =>
      simp only [replaceValueAt, List.mem_cons] at hx
      rcases hx with hx | hx
      · exact Or.inr ⟨e, List.mem_cons_self e l, hx⟩
      · exact Or.inl (List.mem_cons_of_mem e hx)
    | succ n =>
      simp only [replaceValueAt, List.mem_cons] at hx
      rcases hx with hx | hx
      · exact Or.inl (hx ▸ List.mem_cons_self e l)
      · rcases ih hx with h | ⟨e2, he2, hx2⟩
        · exact Or.inl (List.mem_cons_of_mem e h)
        · exact Or.inr ⟨e2, List.mem_cons_of_mem e he2, hx2⟩

theorem find?_replaceValueAt_value {K V : Type} (kf : KeyFuncs K) (h : Nat)
    (k : K) {es : List (SetElement K V)} {i : Nat} (v : V)
    (hf : findIdxP (elemMatches kf h k) es = some i) :
    ((replaceValueAt es i v).find? (elemMatches kf h k)).map SetElement.Value
      = some v := by
  induction es generalizing i with
  | nil => simp [findIdxP] at hf
  | cons e l ih =>
    by_cases hp : elemMatches kf h k e = true
    · simp only [findIdxP, hp, if_true, Option.some.injEq] at hf
      subst hf
      have hrep : elemMatches kf h k ({ e with Value := v }) = true := hp
      simp [replaceValueAt, List.find?_cons, hrep]
    · simp only [Bool.not_eq_true] at hp
      simp only [findIdxP, hp, Bool.false_eq_true, if_false,
        Option.map_eq_some'] at hf
      rcases hf with ⟨j, hj, hij⟩
      subst hij
      simp [replaceValueAt, List.find?_cons, hp, ih hj]

theorem find?_replaceValueAt_of_ne {K V : Type} (p q : SetElement K V → Bool)
    (hq : ∀ (e : SetElement K V) (v : V), q ({ e with Value := v }) = q e)
    (hpq : ∀ e, p e = true → q e = false)
    {es : List (SetElement K V)} {i : Nat} (v : V)
    (hf : findIdxP p es = some i) :
    (replaceValueAt es i v).find? q = es.find? q := by
  induction es generalizing i with
  | nil => simp [findIdxP] at hf
  | cons e l ih =>
    by_cases hp : p e = true
    · simp only [findIdxP, hp, if_true, Option.some.injEq] at hf
      subst hf
      have hqe : q e = false := hpq e hp
      have hrep : q ({ e with Value := v }) = false := by rw [hq]; exact hqe
      simp [replaceValueAt, List.find?_cons, hrep, hqe]
    · simp only [Bool.not_eq_true] at hp
      simp only [findIdxP, hp, Bool.false_eq_true, if_false,
        Option.map_eq_some'] at hf
      rcases hf with ⟨j, hj, hij⟩
      subst hij
      by_cases hqe : q e = true
      · simp [replaceValueAt, List.find?_cons, hqe]
      · simp only [Bool.not_eq_true] at hqe
        simp [replaceValueAt, List.find?_cons, hqe, ih hj]

/-! ## Map-level lemmas for the default key strategy -/

theorem elemMatches_default {K V : Type} [DecidableEq K] (hash : K → Nat)
    (h : Nat) (k : K) (e : SetElement K V) :
    elemMatches (TDefaultMapKeyFuncs K hash) h k e
      = (e.HashIndex == h && e.Key == k) := rfl

theorem dkf_allowDup {K : Type} [DecidableEq K] (hash : K → Nat) :
    (TDefaultMapKeyFuncs K hash).bAllowDuplicateKeys = false := rfl

theorem dkf_hash {K : Type} [DecidableEq K] (hash : K → Nat) :
    (TDefaultMapKeyFuncs K hash).GetKeyHash = hash := rfl

theorem Add_pairs_eq {K V : Type} [DecidableEq K] (hash : K → Nat)
    (m : TMapBase K V) (k : K) (v : V) :
    (TMapBase.Add (TDefaultMapKeyFuncs K hash) m k v).1.Pairs
      = match findIdxP (elemMatches (TDefaultMapKeyFuncs K hash) (hash k) k) m.Pairs with
        | some i => replaceValueAt m.Pairs i v
        | none => m.Pairs ++ [mkElem hash (k, v)] := by
  simp only [TMapBase.Add, TMapBase.Emplace, TSet.Emplace, TSet.EmplaceByHash,
    TSet.FindIdByHash, dkf_allowDup, dkf_hash, Bool.false_eq_true, if_false, mkElem]
  cases hf : findIdxP (elemMatches (TDefaultMapKeyFuncs K hash) (hash k) k) m.Pairs <;>
    simp [hf]

theorem Find_Add_self {K V : Type} [DecidableEq K] (hash : K → Nat)
    (m : TMapBase K V) (k : K) (v : V) :
    TMapBase.Find (TDefaultMapKeyFuncs K hash)
      (TMapBase.Add (TDefaultMapKeyFuncs K hash) m k v).1 k = some v := by
  have hpairs := Add_pairs_eq hash m k v
  simp only [TMapBase.Find, TSet.Find, TSet.FindByHash]
  have hh : (TDefaultMapKeyFuncs K hash).GetKeyHash k = hash k := rfl
  rw [hh, hpairs]
  cases hf : findIdxP (elemMatches (TDefaultMapKeyFuncs K hash) (hash k) k) m.Pairs with
  | some i =>
    exact find?_replaceValueAt_value (TDefaultMapKeyFuncs K hash) (hash k) k v hf
  | none =>
    rw [find?_append_of_none (find?_eq_none_of_findIdxP_none hf)]
    have hx : elemMatches (TDefaultMapKeyFuncs K hash) (hash k) k
        (mkElem hash (k, v) : SetElement K V) = true := by
      simp [elemMatches_default, mkElem]
    rw [List.find?_cons_of_pos _ hx]
    simp [mkElem]

theorem Find_Add_ne {K V : Type} [DecidableEq K] (hash : K → Nat)
    (m : TMapBase K V) (k k2 : K) (v : V) (hk : k2 ≠ k) :
    TMapBase.Find (TDefaultMapKeyFuncs K hash)
      (TMapBase.Add (TDefaultMapKeyFuncs K hash) m k v).1 k2
      = TMapBase.Find (TDefaultMapKeyFuncs K hash) m k2 := by
  have hpairs := Add_pairs_eq hash m k v
  simp only [TMapBase.Find, TSet.Find, TSet.FindByHash]
  have hh : (TDefaultMapKeyFuncs K hash).GetKeyHash k2 = hash k2 := rfl
  rw [hh, hpairs]
  have hneq : k ≠ k2 := fun hkk => hk hkk.symm
  cases hf : findIdxP (elemMatches (TDefaultMapKeyFuncs K hash) (hash k) k) m.Pairs with
  | some i =>
    rw [find?_replaceValueAt_of_ne
      (elemMatches (TDefaultMapKeyFuncs K hash) (hash k) k)
      (elemMatches (TDefaultMapKeyFuncs K hash) (hash k2) k2)
      (fun e v2 => rfl) ?hpq v hf]
    case hpq =>
      intro e hpe
      simp only [elemMatches_default, Bool.and_eq_true, beq_iff_eq] at hpe
      have hek : e.Key = k := hpe.2
      simp [elemMatches_default, hek, hneq]
  | none =>
    rw [find?_append_single_false ?hx]
    case hx =>
      simp [elemMatches_default, mkElem, hneq]

theorem WellFormed_empty {K V : Type} (hash : K → Nat) :
    WellFormed hash (TMapBase.empty K V) := by
  constructor
  · intro e he
    simp [TMapBase.empty] at he
  · simp [TMapBase.empty]

theorem WellFormed_Add {K V : Type} [DecidableEq K] (hash : K → Nat)
    (m : TMapBase K V) (k : K) (v : V) (hwf : WellFormed hash m) :
    WellFormed hash (TMapBase.Add (TDefaultMapKeyFuncs K hash) m k v).1 := by
  obtain ⟨hha, hnd⟩ := hwf
  have hpairs := Add_pairs_eq hash m k v
  cases hf : findIdxP (elemMatches (TDefaultMapKeyFuncs K hash) (hash k) k) m.Pairs with
  | some i =>
    rw [hf] at hpairs
    constructor
    · intro e he
      rw [hpairs] at he
      rcases mem_replaceValueAt he with h | ⟨e2, he2, he2e⟩
      · exact hha e h
      · subst he2e
        exact hha e2 he2
    · rw [hpairs, keys_replaceValueAt]
      exact hnd
  | none =>
    rw [hf] at hpairs
    have hknot : k ∉ m.Pairs.map SetElement.Key := by
      intro hkmem
      rcases List.mem_map.1 hkmem with ⟨e, he, hek⟩
      have hfalse := (findIdxP_eq_none_iff _ _).1 hf e he
      rw [elemMatches_default, hha e he, hek] at hfalse
      simp at hfalse
    constructor
    · intro e he
      rw [hpairs] at he
      rcases List.mem_append.1 he with h | h
      · exact hha e h
      · simp only [List.mem_singleton] at h
        subst h
        rfl
    · rw [hpairs, List.map_append]
      have hone : ([mkElem hash (k, v)] : List (SetElement K V)).map SetElement.Key = [k] := by
        simp [mkElem]
      rw [hone, List.nodup_append]
      refine ⟨hnd, List.nodup_singleton k, ?_⟩
      intro a ha hak
      rw [List.mem_singleton] at hak
      subst hak
      exact hknot ha

theorem WellFormed_addList {K V : Type} [DecidableEq K] (hash : K → Nat)
    (m : TMapBase K V) (ops : List (K × V)) (hwf : WellFormed hash m) :
    WellFormed hash (addList (TDefaultMapKeyFuncs K hash) m ops) := by
  induction ops generalizing m with
  | nil => exact hwf
  | cons p ops ih =>
    exact ih _ (WellFormed_Add hash m p.1 p.2 hwf)

theorem WellFormed_addSeq {K V : Type} [DecidableEq K] (hash : K → Nat)
    (ops : List (K × V)) :
    WellFormed hash (addSeq (TDefaultMapKeyFuncs K hash) ops) :=
  WellFormed_addList hash _ ops (WellFormed_empty hash)

theorem Find_empty {K V : Type} [DecidableEq K] (hash : K → Nat) (k : K) :
    TMapBase.Find (TDefaultMapKeyFuncs K hash) (TMapBase.empty K V) k = none := rfl

theorem Find_addList {K V : Type} [DecidableEq K] (hash : K → Nat)
    (ops : List (K × V)) (m : TMapBase K V) (k : K) :
    TMapBase.Find (TDefaultMapKeyFuncs K hash) (addList (TDefaultMapKeyFuncs K hash) m ops) k
      = lastValFrom (TMapBase.Find (TDefaultMapKeyFuncs K hash) m k) ops k := by
  induction ops generalizing m with
  | nil => rfl
  | cons p ops ih =>
    have hstep : addList (TDefaultMapKeyFuncs K hash) m (p :: ops)
        = addList (TDefaultMapKeyFuncs K hash)
            (TMapBase.Add (TDefaultMapKeyFuncs K hash) m p.1 p.2).1 ops := rfl
    have hlv : lastValFrom (TMapBase.Find (TDefaultMapKeyFuncs K hash) m k) (p :: ops) k
        = lastValFrom (if p.1 = k then some p.2
            else TMapBase.Find (TDefaultMapKeyFuncs K hash) m k) ops k := rfl
    rw [hstep, hlv, ih]
    by_cases hkk : p.1 = k
    · rw [if_pos hkk, ← hkk, Find_Add_self hash m p.1 p.2]
    · rw [if_neg hkk, Find_Add_ne hash m p.1 k p.2 (fun hkp => hkk hkp.symm)]

theorem Find_addSeq {K V : Type} [DecidableEq K] (hash : K → Nat)
    (ops : List (K × V)) (k : K) :
    TMapBase.Find (TDefaultMapKeyFuncs K hash) (addSeq (TDefaultMapKeyFuncs K hash) ops) k
      = lastVal ops k :=
  Find_addList hash ops (TMapBase.empty K V) k

theorem countP_key_of_WellFormed {K V : Type} [DecidableEq K] (hash : K → Nat)
    (m : TMapBase K V) (k : K) (hwf : WellFormed hash m) :
    m.Pairs.countP (fun e => e.Key == k)
      = if (TMapBase.Find (TDefaultMapKeyFuncs K hash) m k).isSome then 1 else 0 := by
  obtain ⟨hha, hnd⟩ := hwf
  have hpt : ∀ e ∈ m.Pairs,
      elemMatches (TDefaultMapKeyFuncs K hash) (hash k) k e = (e.Key == k) := by
    intro e he
    rw [elemMatches_default]
    by_cases hek : e.Key = k
    · simp [hha e he, hek]
    · simp [hek]
  have hfind : TMapBase.Find (TDefaultMapKeyFuncs K hash) m k
      = (m.Pairs.find? (elemMatches (TDefaultMapKeyFuncs K hash) (hash k) k)).map
          SetElement.Value := rfl
  cases hres : m.Pairs.find? (elemMatches (TDefaultMapKeyFuncs K hash) (hash k) k) with
  | none =>
    rw [hfind, hres]
    have hnone := List.find?_eq_none.1 hres
    rw [List.countP_eq_zero.2 ?hz]
    · simp
    case hz =>
      intro e he hbe
      exact hnone e he (by rw [hpt e he]; exact hbe)
  | some e0 =>
    rw [hfind, hres]
    have he0 : e0 ∈ m.Pairs := List.mem_of_find?_eq_some hres
    have hp0 : elemMatches (TDefaultMapKeyFuncs K hash) (hash k) k e0 = true :=
      List.find?_some hres
    have hk0 : e0.Key = k := by
      rw [hpt e0 he0] at hp0
      exact beq_iff_eq.1 hp0
    have hkeys : k ∈ m.Pairs.map SetElement.Key :=
      List.mem_map.2 ⟨e0, he0, hk0⟩
    have hcnt : (m.Pairs.map SetElement.Key).count k = 1 :=
      List.count_eq_one_of_mem hnd hkeys
    rw [List.count] at hcnt
    rw [List.countP_map] at hcnt
    have hrhs : (if (Option.map SetElement.Value (some e0)).isSome then 1 else 0) = 1 := rfl
    rw [hrhs, ← hcnt]
    rfl

theorem addList_pairs_of_nodup {K V : Type} [DecidableEq K] (hash : K → Nat)
    (ops done : List (K × V))
    (hnd : ((done ++ ops).map Prod.fst).Nodup) :
    (addList (TDefaultMapKeyFuncs K hash)
        (⟨done.map (mkElem hash)⟩ : TMapBase K V) ops).Pairs
      = (done ++ ops).map (mkElem hash) := by
  induction ops generalizing done with
  | nil => simp [addList]
  | cons p ops ih =>
    obtain ⟨k, v⟩ := p
    have hknot : k ∉ done.map Prod.fst := by
      intro hkmem
      rw [List.map_append, List.nodup_append] at hnd
      exact hnd.2.2 hkmem (by simp)
    have hprobe : findIdxP
        (elemMatches (TDefaultMapKeyFuncs K hash) (hash k) k)
        (done.map (mkElem hash)) = none := by
      rw [findIdxP_eq_none_iff]
      intro e he
      rcases List.mem_map.1 he with ⟨q, hq, hqe⟩
      subst hqe
      have hqk : q.1 ≠ k := fun hqk => hknot (hqk ▸ List.mem_map_of_mem Prod.fst hq)
      simp [elemMatches_default, mkElem, hqk]
    have hadd : (TMapBase.Add (TDefaultMapKeyFuncs K hash)
        (⟨done.map (mkElem hash)⟩ : TMapBase K V) k v).1.Pairs
        = (done ++ [(k, v)]).map (mkElem hash) := by
      rw [Add_pairs_eq, hprobe, List.map_append]
      rfl
    have hstep : addList (TDefaultMapKeyFuncs K hash)
        (⟨done.map (mkElem hash)⟩ : TMapBase K V) ((k, v) :: ops)
        = addList (TDefaultMapKeyFuncs K hash)
            (TMapBase.Add (TDefaultMapKeyFuncs K hash)
              (⟨done.map (mkElem hash)⟩ : TMapBase K V) k v).1 ops := rfl
    have hmap : (TMapBase.Add (TDefaultMapKeyFuncs K hash)
        (⟨done.map (mkElem hash)⟩ : TMapBase K V) k v).1
        = (⟨(done ++ [(k, v)]).map (mkElem hash)⟩ : TMapBase K V) := by
      cases hA : (TMapBase.Add (TDefaultMapKeyFuncs K hash)
        (⟨done.map (mkElem hash)⟩ : TMapBase K V) k v).1 with
      | mk pairs =>
        have := hadd
        rw [hA] at this
        simpa using this
    rw [hstep, hmap]
    have hnd2 : (((done ++ [(k, v)]) ++ ops).map Prod.fst).Nodup := by
      rw [← List.append_cons]
      exact hnd
    rw [ih (done ++ [(k, v)]) hnd2, ← List.append_cons]

theorem addSeq_pairs_of_nodup {K V : Type} [DecidableEq K] (hash : K → Nat)
    (ops : List (K × V)) (hnd : (ops.map Prod.fst).Nodup) :
    (addSeq (TDefaultMapKeyFuncs K hash) ops).Pairs = ops.map (mkElem hash) := by
  have h := addList_pairs_of_nodup hash ops [] (by simpa using hnd)
  simpa [addSeq, TMapBase.empty] using h

theorem lastValFrom_of_not_mem {K V : Type} [DecidableEq K] (acc : Option V)
    (ops : List (K × V)) (k : K) (hk : k ∉ ops.map Prod.fst) :
    lastValFrom acc ops k = acc := by
  induction ops generalizing acc with
  | nil => rfl
  | cons p ops ih =>
    have hks : k ∉ ops.map Prod.fst := by
      intro hmem
      exact hk (by rw [List.map_cons]; exact List.mem_cons_of_mem _ hmem)
    have hpk : ¬p.1 = k := by
      intro hpk
      exact hk (by rw [List.map_cons, hpk]; exact List.mem_cons_self k _)
    have hstep : lastValFrom acc (p :: ops) k
        = lastValFrom (if p.1 = k then some p.2 else acc) ops k := rfl
    rw [hstep, if_neg hpk]
    exact ih acc hks

theorem lastVal_of_mem_nodup {K V : Type} [DecidableEq K]
    (ops : List (K × V)) (k : K) (v : V) (hnd : (ops.map Prod.fst).Nodup)
    (hmem : (k, v) ∈ ops) : lastVal ops k = some v := by
  induction ops with
  | nil => simp at hmem
  | cons p ops ih =>
    rw [List.map_cons, List.nodup_cons] at hnd
    rcases List.mem_cons.1 hmem with hp | hp
    · have hpk : p.1 = k := by rw [← hp]
      have hnotin : k ∉ ops.map Prod.fst := hpk ▸ hnd.1
      have hstep : lastVal (p :: ops) k
          = lastValFrom (if p.1 = k then some p.2 else none) ops k := rfl
      rw [hstep, if_pos hpk, lastValFrom_of_not_mem _ _ _ hnotin, ← hp]
    · have hkmem : k ∈ ops.map Prod.fst := List.mem_map_of_mem Prod.fst hp
      have hpk : ¬p.1 = k := fun hpk => hnd.1 (hpk ▸ hkmem)
      have hstep : lastVal (p :: ops) k
          = lastValFrom (if p.1 = k then some p.2 else none) ops k := rfl
      rw [hstep, if_neg hpk]
      exact ih hnd.2 hp

theorem oiceElem_iff {V : Type} [DecidableEq V] (o : Option V) (x : V) :
    (match o with
      | none => false
      | some bv => bv == x) = true ↔ o = some x := by
  cases o with
  | none => simp
  | some bv => simp [beq_iff_eq]

theorem OICE_eq_true_iff {K V : Type} [DecidableEq V] (kf : KeyFuncs K)
    (m other : TMapBase K V) :
    TMapBase.OrderIndependentCompareEqual kf m other = true ↔
      (m.Num = other.Num ∧
        ∀ e ∈ m.Pairs, TMapBase.Find kf other e.Key = some e.Value) := by
  by_cases hn : m.Num = other.Num
  · have hb : (m.Num != other.Num) = false := by simp [bne, hn]
    rw [TMapBase.OrderIndependentCompareEqual, hb]
    simp only [Bool.false_eq_true, if_false, List.all_eq_true]
    constructor
    · intro h
      refine ⟨hn, ?_⟩
      intro e he
      exact (oiceElem_iff _ _).1 (h e he)
    · intro h e he
      exact (oiceElem_iff _ _).2 (h.2 e he)
  · have hb : (m.Num != other.Num) = true := bne_iff_ne.2 hn
    rw [TMapBase.OrderIndependentCompareEqual, hb]
    simp [hn]

theorem OICE_false_of_num_ne {K V : Type} [DecidableEq V] (kf : KeyFuncs K)
    (m other : TMapBase K V) (hn : m.Num ≠ other.Num) :
    TMapBase.OrderIndependentCompareEqual kf m other = false := by
  have hb : (m.Num != other.Num) = true := bne_iff_ne.2 hn
  rw [TMapBase.OrderIndependentCompareEqual, hb]
  simp

theorem contains_iff_mem {K : Type} [DecidableEq K] (l : List K) (a : K) :
    l.contains a = true ↔ a ∈ l := by
  rw [List.contains_iff_exists_mem_beq]
  constructor
  · intro h
    rcases h with ⟨b, hb, hab⟩
    exact (beq_iff_eq.1 hab) ▸ hb
  · intro h
    exact ⟨a, h, beq_self_eq_true a⟩

theorem collectUniqueKeys_spec {K V : Type} [DecidableEq K]
    (es : List (SetElement K V)) (acc : List K) (hacc : acc.Nodup) :
    (TMapBase.collectUniqueKeys es acc).Nodup ∧
      ∀ k : K, k ∈ TMapBase.collectUniqueKeys es acc ↔
        (k ∈ acc ∨ ∃ e ∈ es, e.Key = k) := by
  induction es generalizing acc with
  | nil =>
    refine ⟨hacc, ?_⟩
    intro k
    simp [TMapBase.collectUniqueKeys]
  | cons e es ih =>
    by_cases hc : acc.contains e.Key = true
    · have hmem : e.Key ∈ acc := (contains_iff_mem acc e.Key).1 hc
      have hstep : TMapBase.collectUniqueKeys (e :: es) acc
          = TMapBase.collectUniqueKeys es acc := by
        simp only [TMapBase.collectUniqueKeys, hc, eq_self_iff_true, if_true]
      rw [hstep]
      obtain ⟨h1, h2⟩ := ih acc hacc
      refine ⟨h1, ?_⟩
      intro k
      rw [h2 k]
      constructor
      · intro h
        rcases h with h | ⟨e2, he2, hk2⟩
        · exact Or.inl h
        · exact Or.inr ⟨e2, List.mem_cons_of_mem e he2, hk2⟩
      · intro h
        rcases h with h | ⟨e2, he2, hk2⟩
        · exact Or.inl h
        · rcases List.mem_cons.1 he2 with he2 | he2
          · exact Or.inl (by rw [← hk2, he2]; exact hmem)
          · exact Or.inr ⟨e2, he2, hk2⟩
    · have hnmem : e.Key ∉ acc := fun hmem =>
        hc ((contains_iff_mem acc e.Key).2 hmem)
      have hstep : TMapBase.collectUniqueKeys (e :: es) acc
          = TMapBase.collectUniqueKeys es (acc ++ [e.Key]) := by
        have hcf : acc.contains e.Key = false := by
          cases hcv : acc.contains e.Key with
          | true => exact absurd hcv hc
          | false => rfl
        simp only [TMapBase.collectUniqueKeys, hcf, Bool.false_eq_true, if_false]
      rw [hstep]
      have hacc2 : (acc ++ [e.Key]).Nodup := by
        rw [List.nodup_append]
        refine ⟨hacc, List.nodup_singleton _, ?_⟩
        intro a ha hak
        rw [List.mem_singleton] at hak
        exact hnmem (hak ▸ ha)
      obtain ⟨h1, h2⟩ := ih (acc ++ [e.Key]) hacc2
      refine ⟨h1, ?_⟩
      intro k
      rw [h2 k]
      constructor
      · intro h
        rcases h with h | ⟨e2, he2, hk2⟩
        · rcases List.mem_append.1 h with h | h
          · exact Or.inl h
          · rw [List.mem_singleton] at h
            exact Or.inr ⟨e, List.mem_cons_self e es, h.symm⟩
        · exact Or.inr ⟨e2, List.mem_cons_of_mem e he2, hk2⟩
      · intro h
        rcases h with h | ⟨e2, he2, hk2⟩
        · exact Or.inl (List.mem_append.2 (Or.inl h))
        · rcases List.mem_cons.1 he2 with he2 | he2
          · exact Or.inl (List.mem_append.2 (Or.inr (by
              rw [List.mem_singleton, ← hk2, he2])))
          · exact Or.inr ⟨e2, he2, hk2⟩

theorem countP_elem_eq_countP_key {K V : Type} [DecidableEq K] (hash : K → Nat)
    (es : List (SetElement K V)) (k : K)
    (hha : ∀ e ∈ es, e.HashIndex = hash e.Key) :
    es.countP (elemMatches (TDefaultMapKeyFuncs K hash) (hash k) k)
      = es.countP (fun e => e.Key == k) := by
  refine List.countP_congr ?_
  intro e he
  rw [elemMatches_default]
  by_cases hek : e.Key = k
  · simp [hha e he, hek]
  · simp [hek]

theorem resizeEnterCond_iff (alloc : ForAnyElementType) (NumElements : Int) :
    (alloc.Data.isSome || NumElements != 0) = true ↔
      (alloc.Data ≠ none ∨ NumElements ≠ 0) := by
  cases hd : alloc.Data <;> simp [bne_iff_ne]

theorem bInvalidResize_iff (i : Nat) (n : Int) (s : Nat) :
    bInvalidResize i n s = true ↔
      (n < 0 ∨ s = 0 ∨ MAX_int32 < s ∨
        (i = SIZE_T_BITS ∧
          sizeTypeMax SIZE_T_BITS / s < castToUSizeType SIZE_T_BITS n)) := by
  rw [bInvalidResize]
  by_cases hidx : i = SIZE_T_BITS
  · subst hidx
    rw [if_pos rfl]
    simp only [bInvalidResizeBase, Bool.or_eq_true, decide_eq_true_eq,
      Nat.lt_one_iff, eq_self_iff_true, true_and]
    tauto
  · rw [if_neg hidx]
    simp only [bInvalidResizeBase, Bool.or_eq_true, decide_eq_true_eq,
      Nat.lt_one_iff, hidx, false_and, or_false]
    tauto

/-! ## Claim theorems -/

/-- C10: when the allocator currently owns no block (its Data pointer is
null) and the requested count is 0, ResizeAllocation returns immediately
with no Realloc call and no fatal diagnostic, for every element size —
including an element size of 0, which would otherwise fail validation. -/
theorem claim_C10 (indexSize NumBytesPerElement : Nat) :
    ResizeAllocation indexSize { Data := none } 0 NumBytesPerElement
      = ResizeOutcome.noop := by
  simp [ResizeAllocation]

/-- C3 counterexample: with a block owned, newCount 1 and elementSize
2^31, ResizeAllocation invokes the fatal hook even though newCount is
nonnegative, elementSize is nonzero, and the byte-size product 1 * 2^31
does not overflow the 64-bit platform size type — refuting the claimed
"if and only if" characterisation of the fatal path. -/
theorem claim_C3_counterexample :
    ResizeAllocation 32 { Data := some 0 } 1 (2 ^ 31)
      = ResizeOutcome.fatal 32 1 (2 ^ 31) ∧
    ¬ ((1 : Int) < 0 ∨ (2 ^ 31 : Nat) = 0 ∨ 2 ^ SIZE_T_BITS ≤ 1 * 2 ^ 31) := by
  constructor
  · decide
  · decide

/-- C3 (amended): the fatal hook fires iff the call actually resizes (the
allocator owns a block or newCount is nonzero) and the parameters are
invalid: newCount negative, elementSize zero, elementSize above MAX_int32,
or — only when the index width equals the platform size width — the
unsigned product newCount * elementSize exceeding the index type's signed
maximum; on the non-fatal resize path the block is resized to exactly
newCount * elementSize bytes (in platform size arithmetic). -/
theorem claim_C3_amended (indexSize : Nat) (alloc : ForAnyElementType)
    (NumElements : Int) (NumBytesPerElement : Nat) :
    (ResizeAllocation indexSize alloc NumElements NumBytesPerElement
        = ResizeOutcome.fatal indexSize NumElements NumBytesPerElement ↔
      ((alloc.Data ≠ none ∨ NumElements ≠ 0) ∧
        (NumElements < 0 ∨ NumBytesPerElement = 0 ∨ MAX_int32 < NumBytesPerElement ∨
          (indexSize = SIZE_T_BITS ∧
            sizeTypeMax SIZE_T_BITS / NumBytesPerElement
              < castToUSizeType SIZE_T_BITS NumElements)))) ∧
    ((alloc.Data.isSome || NumElements != 0) = true →
      bInvalidResize indexSize NumElements NumBytesPerElement = false →
      ResizeAllocation indexSize alloc NumElements NumBytesPerElement
        = ResizeOutcome.realloc
            ((NumElements.toNat * NumBytesPerElement) % 2 ^ SIZE_T_BITS)) := by
  constructor
  · rw [ResizeAllocation]
    by_cases hc : (alloc.Data.isSome || NumElements != 0) = true
    · rw [if_pos hc]
      by_cases hi : bInvalidResize indexSize NumElements NumBytesPerElement = true
      · rw [if_pos hi]
        exact iff_of_true rfl
          ⟨(resizeEnterCond_iff alloc NumElements).1 hc,
            (bInvalidResize_iff indexSize NumElements NumBytesPerElement).1 hi⟩
      · rw [if_neg hi]
        refine iff_of_false (by simp) ?_
        rintro ⟨h1, h2⟩
        exact hi ((bInvalidResize_iff indexSize NumElements NumBytesPerElement).2 h2)
    · rw [if_neg hc]
      refine iff_of_false (by simp) ?_
      rintro ⟨h1, h2⟩
      exact hc ((resizeEnterCond_iff alloc NumElements).2 h1)
  · intro hc hi
    rw [ResizeAllocation, if_pos hc, if_neg (by rw [hi]; exact Bool.false_ne_true)]

/-- C3 witness: a concrete valid resize goes through the non-fatal path
and requests exactly newCount * elementSize bytes. -/
theorem claim_C3_witness :
    ResizeAllocation 32 { Data := some 0 } 4 8
      = ResizeOutcome.realloc (((4 : Int).toNat * 8) % 2 ^ SIZE_T_BITS) :=
  (claim_C3_amended 32 { Data := some 0 } 4 8).2 (by decide) (by decide)

/-- C7 counterexample: a move destination that owns a block passes the
only internal debug check (which tests that source and destination are
distinct objects, not that the destination is empty), and the operation
proceeds, freeing the destination's old block — refuting the claim that
an empty-destination precondition is enforced by a debug check. -/
theorem claim_C7_counterexample :
    MoveToEmptyCheckSlow 0 1 = true ∧
    ({ Data := some 5 } : ForAnyElementType).Data ≠ none ∧
    MoveToEmpty { Data := some 5 } { Data := some 7 }
      = { selfAfter := { Data := some 7 }, otherAfter := { Data := none },
          freed := some 5 } := by
  decide

/-- C7 (amended): moving the allocator state transfers block ownership —
afterwards the destination's Data equals the source's previous Data and
the source's Data is null, any block previously owned by the destination
being freed — and the internal debug check enforces only that source and
destination are distinct allocator objects. -/
theorem claim_C7_amended (self other : ForAnyElementType) (a b : Nat) :
    (MoveToEmpty self other).selfAfter.Data = other.Data ∧
    (MoveToEmpty self other).otherAfter.Data = none ∧
    (MoveToEmpty self other).freed = self.Data ∧
    (MoveToEmptyCheckSlow a b = true ↔ a ≠ b) := by
  refine ⟨rfl, rfl, rfl, ?_⟩
  simp [MoveToEmptyCheckSlow, bne_iff_ne]

/-- C1: for every single-value map (default KeyFuncs, duplicate keys
disallowed) and every Add sequence from the empty map, each key present
afterwards is stored exactly once, with the value of its most recent Add
(Find returns exactly the last added value, and the number of stored
elements with that key is one when present, zero otherwise); in
particular inserting ("a",1), ("b",2), ("a",3) yields Num() = 2 with
"a" mapped to 3 and "b" mapped to 2. -/
theorem claim_C1 :
    (∀ (K V : Type) [DecidableEq K] (hash : K → Nat)
        (ops : List (K × V)) (k : K),
      TMapBase.Find (TDefaultMapKeyFuncs K hash)
          (addSeq (TDefaultMapKeyFuncs K hash) ops) k = lastVal ops k ∧
      (addSeq (TDefaultMapKeyFuncs K hash) ops).Pairs.countP
          (fun e => e.Key == k)
        = (if (lastVal ops k).isSome then 1 else 0)) ∧
    (scenarioAMap.Num = 2 ∧
      TMapBase.Find kfStr scenarioAMap keyA = some 3 ∧
      TMapBase.Find kfStr scenarioAMap keyB = some 2) := by
  constructor
  · intro K V instK hash ops k
    refine ⟨Find_addSeq hash ops k, ?_⟩
    rw [countP_key_of_WellFormed hash _ k (WellFormed_addSeq hash ops),
      Find_addSeq hash ops k]
  · refine ⟨by decide, by decide, by decide⟩

/-- C2: for every map state, Find immediately after Add(k, v) returns the
stored value v, and Find immediately after Remove(k) returns the
not-found result. -/
theorem claim_C2 : ∀ (K V : Type) [DecidableEq K] (hash : K → Nat)
    (m : TMapBase K V) (k : K) (v : V),
    TMapBase.Find (TDefaultMapKeyFuncs K hash)
        (TMapBase.Add (TDefaultMapKeyFuncs K hash) m k v).1 k = some v ∧
    TMapBase.Find (TDefaultMapKeyFuncs K hash)
        (TMapBase.Remove (TDefaultMapKeyFuncs K hash) m k).1 k = none := by
  intro K V instK hash m k v
  refine ⟨Find_Add_self hash m k v, ?_⟩
  have hfind : TMapBase.Find (TDefaultMapKeyFuncs K hash)
      (TMapBase.Remove (TDefaultMapKeyFuncs K hash) m k).1 k
      = ((m.Pairs.filter
            (fun e => ! elemMatches (TDefaultMapKeyFuncs K hash) (hash k) k e)).find?
          (elemMatches (TDefaultMapKeyFuncs K hash) (hash k) k)).map
          SetElement.Value := rfl
  rw [hfind, List.find?_eq_none.2 ?hnone]
  · rfl
  case hnone =>
    intro e he hpe
    have hmem := List.mem_filter.1 he
    rw [hpe] at hmem
    simp at hmem

/-- C5: for every map state and key, FindByHash with the hash computed by
the key strategy (HashKey, i.e. KeyFuncs::GetKeyHash) returns exactly the
result of Find: Find routes its probe through the same hash. -/
theorem claim_C5 (K V : Type) (kf : KeyFuncs K) (m : TMapBase K V) (k : K) :
    TMapBase.FindByHash kf m (TMapBase.HashKey kf k) k
      = TMapBase.Find kf m k := rfl

/-- C6: two consecutive FindOrAdd(k, v) calls with no intervening mutation
return the same result — the same map state and a reference (slot id) to
the same stored value — so the second call leaves Num() unchanged. -/
theorem claim_C6 : ∀ (K V : Type) [DecidableEq K] (hash : K → Nat)
    (m : TMapBase K V) (k : K) (v : V),
    TMapBase.FindOrAdd (TDefaultMapKeyFuncs K hash)
        (TMapBase.FindOrAdd (TDefaultMapKeyFuncs K hash) m k v).1 k v
      = TMapBase.FindOrAdd (TDefaultMapKeyFuncs K hash) m k v ∧
    (TMapBase.FindOrAdd (TDefaultMapKeyFuncs K hash)
        (TMapBase.FindOrAdd (TDefaultMapKeyFuncs K hash) m k v).1 k v).1.Num
      = (TMapBase.FindOrAdd (TDefaultMapKeyFuncs K hash) m k v).1.Num := by
  intro K V instK hash m k v
  have hmain : TMapBase.FindOrAdd (TDefaultMapKeyFuncs K hash)
      (TMapBase.FindOrAdd (TDefaultMapKeyFuncs K hash) m k v).1 k v
      = TMapBase.FindOrAdd (TDefaultMapKeyFuncs K hash) m k v := by
    cases hp : findIdxP
        (elemMatches (TDefaultMapKeyFuncs K hash) (hash k) k) m.Pairs with
    | some i =>
      have h1 : TMapBase.FindOrAdd (TDefaultMapKeyFuncs K hash) m k v = (m, i) := by
        simp only [TMapBase.FindOrAdd, TMapBase.FindOrAddImpl, TMapBase.HashKey,
          TSet.FindIdByHash, dkf_hash, hp]
      rw [h1]
      have h2 : TMapBase.FindOrAdd (TDefaultMapKeyFuncs K hash) (m, i).1 k v
          = (m, i) := h1
      exact h2
    | none =>
      have h1 : TMapBase.FindOrAdd (TDefaultMapKeyFuncs K hash) m k v
          = ((⟨m.Pairs ++ [mkElem hash (k, v)]⟩ : TMapBase K V), m.Pairs.length) := by
        simp only [TMapBase.FindOrAdd, TMapBase.FindOrAddImpl, TMapBase.HashKey,
          TSet.FindIdByHash, dkf_hash, hp, TMapBase.AddByHash, TMapBase.EmplaceByHash,
          TSet.EmplaceByHash, dkf_allowDup, Bool.false_eq_true, if_false, mkElem]
      have hx : elemMatches (TDefaultMapKeyFuncs K hash) (hash k) k
          (mkElem hash (k, v) : SetElement K V) = true := by
        simp [elemMatches_default, mkElem]
      have hp2 : findIdxP (elemMatches (TDefaultMapKeyFuncs K hash) (hash k) k)
          (m.Pairs ++ [mkElem hash (k, v)]) = some m.Pairs.length :=
        findIdxP_append_singleton hp hx
      have h2 : TMapBase.FindOrAdd (TDefaultMapKeyFuncs K hash)
          (⟨m.Pairs ++ [mkElem hash (k, v)]⟩ : TMapBase K V) k v
          = ((⟨m.Pairs ++ [mkElem hash (k, v)]⟩ : TMapBase K V), m.Pairs.length) := by
        simp only [TMapBase.FindOrAdd, TMapBase.FindOrAddImpl, TMapBase.HashKey,
          TSet.FindIdByHash, dkf_hash, hp2]
      rw [h1, h2]
  exact ⟨hmain, by rw [hmain]⟩

/-- C4: OrderIndependentCompareEqual returns true iff the two maps have
equal cardinality and every pair of this map is found in the other with an
equal value; two maps built by inserting the same distinct-key pairs in
different orders compare equal; a cardinality mismatch returns false
whatever the stored values; and a map with one differing value compares
false (concrete instance). -/
theorem claim_C4 :
    (∀ (K V : Type) [DecidableEq V] (kf : KeyFuncs K) (m other : TMapBase K V),
      TMapBase.OrderIndependentCompareEqual kf m other = true ↔
        (m.Num = other.Num ∧
          ∀ e ∈ m.Pairs, TMapBase.Find kf other e.Key = some e.Value)) ∧
    (∀ (K V : Type) [DecidableEq K] [DecidableEq V] (hash : K → Nat)
        (ops1 ops2 : List (K × V)),
      ops1.Perm ops2 → (ops1.map Prod.fst).Nodup →
      TMapBase.OrderIndependentCompareEqual (TDefaultMapKeyFuncs K hash)
        (addSeq (TDefaultMapKeyFuncs K hash) ops1)
        (addSeq (TDefaultMapKeyFuncs K hash) ops2) = true) ∧
    (∀ (K V : Type) [DecidableEq V] (kf : KeyFuncs K) (m other : TMapBase K V),
      m.Num ≠ other.Num →
      TMapBase.OrderIndependentCompareEqual kf m other = false) ∧
    (TMapBase.OrderIndependentCompareEqual kfStr
        (addSeq kfStr [(keyA, 1)]) (addSeq kfStr [(keyA, 2)]) = false) := by
  refine ⟨?_, ?_, ?_, by decide⟩
  · intro K V instV kf m other
    exact OICE_eq_true_iff kf m other
  · intro K V instK instV hash ops1 ops2 hperm hnd1
    have hnd2 : (ops2.map Prod.fst).Nodup := ((hperm.map Prod.fst).nodup_iff).1 hnd1
    have hp1 := addSeq_pairs_of_nodup hash ops1 hnd1
    have hp2 := addSeq_pairs_of_nodup hash ops2 hnd2
    rw [OICE_eq_true_iff]
    constructor
    · rw [TMapBase.Num, TMapBase.Num, hp1, hp2, List.length_map, List.length_map,
        hperm.length_eq]
    · intro e he
      rw [hp1] at he
      rcases List.mem_map.1 he with ⟨q, hq, hqe⟩
      subst hqe
      have hq2 : q ∈ ops2 := hperm.subset hq
      have hkey : (mkElem hash q).Key = q.1 := rfl
      have hval : (mkElem hash q).Value = q.2 := rfl
      rw [hkey, hval, Find_addSeq hash ops2 q.1]
      exact lastVal_of_mem_nodup ops2 q.1 q.2 hnd2 (by rw [Prod.mk.eta]; exact hq2)
  · intro K V instV kf m other hn
    exact OICE_false_of_num_ne kf m other hn

/-- C4 witness: two maps built from the same two distinct-key pairs in
swapped order compare equal, and a cardinality mismatch compares false. -/
theorem claim_C4_witness :
    TMapBase.OrderIndependentCompareEqual kfStr
        (addSeq kfStr [(keyA, 1), (keyB, 2)])
        (addSeq kfStr [(keyB, 2), (keyA, 1)]) = true ∧
    TMapBase.OrderIndependentCompareEqual kfStr
        (addSeq kfStr [(keyA, 1)]) (TMapBase.empty String Nat) = false :=
  ⟨claim_C4.2.1 String Nat hashStr [(keyA, 1), (keyB, 2)] [(keyB, 2), (keyA, 1)]
      (List.Perm.swap (keyB, 2) (keyA, 1) []) (by decide),
   claim_C4.2.2.1 String Nat kfStr (addSeq kfStr [(keyA, 1)])
      (TMapBase.empty String Nat) (by decide)⟩

/-- C8: GetKeys resets the output collection (the result does not depend
on its previous contents), writes each distinct key of the map exactly
once (no duplicates, and a key is written iff some pair holds it — even
on map states containing equal keys), and returns the output collection's
final element count; on an empty map it returns 0 with an empty output. -/
theorem claim_C8 : ∀ (K V : Type) [DecidableEq K] (m : TMapBase K V)
    (outKeys0 : List K),
    (TMapBase.GetKeys m outKeys0).2 = (TMapBase.GetKeys m outKeys0).1.length ∧
    TMapBase.GetKeys m outKeys0 = TMapBase.GetKeys m [] ∧
    (TMapBase.GetKeys m outKeys0).1.Nodup ∧
    (∀ k : K, k ∈ (TMapBase.GetKeys m outKeys0).1 ↔ ∃ e ∈ m.Pairs, e.Key = k) ∧
    (m.Pairs = [] → TMapBase.GetKeys m outKeys0 = ([], 0)) := by
  intro K V instK m outKeys0
  obtain ⟨h1, h2⟩ := collectUniqueKeys_spec m.Pairs ([] : List K) List.nodup_nil
  refine ⟨rfl, rfl, h1, ?_, ?_⟩
  · intro k
    have h3 := h2 k
    simpa using h3
  · intro hemp
    cases m with
    | mk pairs =>
      simp only at hemp
      subst hemp
      rfl

/-- C8 witness: GetKeys on the empty map ignores stale output contents
and returns an empty collection with count 0. -/
theorem claim_C8_witness :
    TMapBase.GetKeys (TMapBase.empty String Nat) [keyMissing] = ([], 0) :=
  (claim_C8 String Nat (TMapBase.empty String Nat) [keyMissing]).2.2.2.2 rfl

/-- C9: Remove returns the number of removed pairs: 0 when no stored key
equals the searched key (the map is then returned unchanged) — in
particular Remove on the empty map returns 0 — and exactly 1 when a
well-formed single-value map contains the key. -/
theorem claim_C9 :
    (∀ (K V : Type) [DecidableEq K] (hash : K → Nat) (m : TMapBase K V) (k : K),
      (∀ e ∈ m.Pairs, e.Key ≠ k) →
      TMapBase.Remove (TDefaultMapKeyFuncs K hash) m k = (m, 0)) ∧
    (∀ (K V : Type) [DecidableEq K] (hash : K → Nat) (m : TMapBase K V) (k : K),
      WellFormed hash m → (∃ e ∈ m.Pairs, e.Key = k) →
      (TMapBase.Remove (TDefaultMapKeyFuncs K hash) m k).2 = 1) ∧
    (TMapBase.Remove kfStr (TMapBase.empty String Nat) keyMissing
      = (TMapBase.empty String Nat, 0)) := by
  refine ⟨?_, ?_, by decide⟩
  · intro K V instK hash m k hnone
    have hpred : ∀ e ∈ m.Pairs,
        elemMatches (TDefaultMapKeyFuncs K hash) (hash k) k e = false := by
      intro e he
      simp [elemMatches_default, hnone e he]
    have hfilter : m.Pairs.filter
        (fun e => ! elemMatches (TDefaultMapKeyFuncs K hash) (hash k) k e)
        = m.Pairs :=
      List.filter_eq_self.2 (fun e he => by rw [hpred e he]; rfl)
    have hcount : m.Pairs.countP
        (elemMatches (TDefaultMapKeyFuncs K hash) (hash k) k) = 0 :=
      List.countP_eq_zero.2 (fun e he => by simp [hpred e he])
    have hrem : TMapBase.Remove (TDefaultMapKeyFuncs K hash) m k
        = ((⟨m.Pairs.filter
              (fun e => ! elemMatches (TDefaultMapKeyFuncs K hash) (hash k) k e)⟩
            : TMapBase K V),
           m.Pairs.countP (elemMatches (TDefaultMapKeyFuncs K hash) (hash k) k)) := rfl
    rw [hrem, hfilter, hcount]
  · intro K V instK hash m k hwf hex
    have hha := hwf.1
    have hfind0 : TMapBase.Find (TDefaultMapKeyFuncs K hash) m k
        = (m.Pairs.find? (elemMatches (TDefaultMapKeyFuncs K hash) (hash k) k)).map
            SetElement.Value := rfl
    have hfs : (TMapBase.Find (TDefaultMapKeyFuncs K hash) m k).isSome = true := by
      rcases hex with ⟨e0, he0, hk0⟩
      have hp0 : elemMatches (TDefaultMapKeyFuncs K hash) (hash k) k e0 = true := by
        simp [elemMatches_default, hha e0 he0, hk0]
      cases hres : m.Pairs.find?
          (elemMatches (TDefaultMapKeyFuncs K hash) (hash k) k) with
      | none =>
        exact absurd hp0 (by simpa using List.find?_eq_none.1 hres e0 he0)
      | some e1 =>
        rw [hfind0, hres]
        rfl
    show m.Pairs.countP (elemMatches (TDefaultMapKeyFuncs K hash) (hash k) k) = 1
    rw [countP_elem_eq_countP_key hash m.Pairs k hha,
      countP_key_of_WellFormed hash m k hwf]
    simp [hfs]

/-- C9 witness: removing an absent key from a one-element map returns 0
and leaves the map unchanged; removing its present key returns 1. -/
theorem claim_C9_witness :
    TMapBase.Remove kfStr (addSeq kfStr [(keyA, 5)]) keyB
        = (addSeq kfStr [(keyA, 5)], 0) ∧
    (TMapBase.Remove kfStr (addSeq kfStr [(keyA, 5)]) keyA).2 = 1 :=
  ⟨claim_C9.1 String Nat hashStr (addSeq kfStr [(keyA, 5)]) keyB (by decide),
   claim_C9.2.1 String Nat hashStr (addSeq kfStr [(keyA, 5)]) keyA
      (by constructor
          · decide
          · decide)
      (by decide)⟩

end DemoUE
